import Mathlib

/-!
Verification of the LLM memory store's core pipeline: statement segmentation,
keyword-rule classification, tag inference, duplicate-gated knowledge saving,
and full-text search ranking with recency tie-breaks.

The database layer is modelled shallowly: tables are Lean lists, the SQL
full-text primitives (`plainto_tsquery`/`to_tsvector` matching and `ts_rank`)
are parameters `fm`/`fr` of the operations, constrained only by the properties
the store guarantees (non-negative scores, zero score on a non-match), and
`gen_random_uuid()` / `NOW()` are modelled by per-store counters.
-/

namespace LLMMCP

/-! ### Python text primitives -/

/-- Python `str` whitespace (the characters stripped by `str.strip()` and
matched by `\s` on ASCII text). -/
def pyIsSpace (c : Char) : Bool :=
  c = ' ' || c = '\t' || c = '\n' || c = '\r' || c = '\x0b' || c = '\x0c'

/-- Regex `\w` on ASCII text: letters, digits, underscore. -/
def isWordChar (c : Char) : Bool := c.isAlphanum || c = '_'

/-- The apostrophe character (used by the `don't` keyword). -/
def apos : Char := Char.ofNat 39

/-- `str.strip()`: drop whitespace from both ends. -/
def pyStrip (cs : List Char) : List Char :=
  ((cs.dropWhile pyIsSpace).reverse.dropWhile pyIsSpace).reverse

/-- Lowercase a string into its character list (model of `str.lower()` /
`re.IGNORECASE` on ASCII text). -/
def lowerChars (s : String) : List Char := s.data.map Char.toLower

/-! ### A small matcher for the keyword regexes of `db.py`

Every regex in `db.py` is an alternation of literal words, optionally carrying
a word boundary `\b` at either end and an occasional any-character wildcard
(`machine.learning`).  Optional groups such as `(?:sql|s)?` are expanded into
one alternative per choice, which preserves `re.search` existence. -/

/-- One unit of a pattern alternative: a literal character or `.` (any
character except newline). -/
inductive PItem where
  | lit (c : Char)
  | anyNoNl

/-- One alternative of a keyword regex: an item sequence with optional word
boundaries (`\b`) required before and after. -/
structure PatAlt where
  pre : Bool
  items : List PItem
  post : Bool

/-- Match an item sequence against a prefix of `cs`, returning the remainder. -/
def matchSeq : List PItem → List Char → Option (List Char)
  | [], rest => some rest
  | _ :: _, [] => none
  | .lit a :: is, c :: cs => if a = c then matchSeq is cs else none
  | .anyNoNl :: is, c :: cs => if c = '\n' then none else matchSeq is cs

/-- A position is a word boundary if the neighbouring character is absent or a
non-word character (all our literals start and end with word characters). -/
def nonWordOpt : Option Char → Bool
  | none => true
  | some c => !isWordChar c

/-- Does alternative `alt` match starting exactly at `cs`, where `prev` is the
character just before this position? -/
def altAt (alt : PatAlt) (prev : Option Char) (cs : List Char) : Bool :=
  (!alt.pre || nonWordOpt prev) &&
    match matchSeq alt.items cs with
    | none => false
    | some rest => !alt.post || nonWordOpt rest.head?

/-- Scan for a match of any alternative at any position (`re.search`). -/
def patSearchFrom (alts : List PatAlt) : Option Char → List Char → Bool
  | _, [] => false
  | prev, c :: rest =>
    alts.any (fun a => altAt a prev (c :: rest)) || patSearchFrom alts (some c) rest

/-- `re.search` existence of an alternation over a whole text. -/
def patSearch (alts : List PatAlt) (text : List Char) : Bool :=
  patSearchFrom alts none text

/-- Literal item sequence for a keyword. -/
def lits (s : String) : List PItem := s.data.map PItem.lit

/-- A fully word-bounded keyword (`\bword\b`). -/
def kw (s : String) : PatAlt := ⟨true, lits s, true⟩

/-! ### Classifier keyword tables (`_PREFERENCE_KEYWORDS` etc. in `db.py`) -/

def _PREFERENCE_KEYWORDS : List PatAlt :=
  [kw "prefer", kw "like", kw "love", kw "enjoy", kw "favor", kw "want",
   kw "choose", kw "rather", kw "my favorite", kw "i use", kw "i always"]

/-- The `don't` keyword, built without an apostrophe literal in source text. -/
def kwDont : PatAlt := ⟨true, [PItem.lit 'd', PItem.lit 'o', PItem.lit 'n', PItem.lit apos, PItem.lit 't'], true⟩

def _INSTRUCTION_KEYWORDS : List PatAlt :=
  [kw "always", kw "never", kw "must", kw "should", kwDont, kw "do not",
   kw "make sure", kw "ensure", kw "avoid", kw "remember to"]

def _DECISION_KEYWORDS : List PatAlt :=
  [kw "decided", kw "decision", kw "chose", kw "chosen", kw "agreed",
   kw "we will", kw "going to", kw "settled on", kw "switched to", kw "migrated to"]

/-- `_classify_statement`: first matching rule wins, default `"fact"`. -/
def _classify_statement (text : String) : String :=
  let low := lowerChars text
  if patSearch _PREFERENCE_KEYWORDS low then "preference"
  else if patSearch _INSTRUCTION_KEYWORDS low then "instruction"
  else if patSearch _DECISION_KEYWORDS low then "decision"
  else "fact"

/-! ### Statement segmenter (`_extract_statements`) -/

/-- `re.split(r'\n+', ·)`: split on runs of newlines.  `inRun` records that the
scanner is inside a newline run (whose part has already been emitted). -/
def splitNlGo (acc : List Char) (inRun : Bool) : List Char → List (List Char)
  | [] => [acc.reverse]
  | c :: rest =>
    if c = '\n' then
      if inRun then splitNlGo acc true rest
      else acc.reverse :: splitNlGo [] true rest
    else splitNlGo (c :: acc) false rest

def splitNl (cs : List Char) : List (List Char) := splitNlGo [] false cs

/-- `re.sub(r'^\s*[-*•]\s*', '', line)`: strip one leading bullet marker. -/
def stripBullet (cs : List Char) : List Char :=
  match cs.dropWhile pyIsSpace with
  | c :: rest =>
    if c = '-' || c = '*' || c = '•' then rest.dropWhile pyIsSpace else cs
  | [] => cs

/-- `re.sub(r'^\s*\d+[.)]\s*', '', line)`: strip one leading list number. -/
def stripNumbered (cs : List Char) : List Char :=
  let ws := cs.dropWhile pyIsSpace
  let ds := ws.takeWhile Char.isDigit
  if ds.isEmpty then cs
  else
    match ws.drop ds.length with
    | c :: rest => if c = '.' || c = ')' then rest.dropWhile pyIsSpace else cs
    | [] => cs

/-- A sentence terminator (`[.!?]`). -/
def isTerm (c : Char) : Bool := c = '.' || c = '!' || c = '?'

def isTermOpt : Option Char → Bool
  | some c => isTerm c
  | none => false

/-- `re.split(r'(?<=[.!?])\s+', ·)`: split on whitespace runs preceded by a
sentence terminator.  `inDelim` records that the scanner is consuming the
whitespace run of a delimiter already emitted. -/
def sentGo (acc : List Char) (prev : Option Char) (inDelim : Bool) :
    List Char → List (List Char)
  | [] => [acc.reverse]
  | c :: rest =>
    if inDelim then
      if pyIsSpace c then sentGo acc prev true rest
      else sentGo [c] (some c) false rest
    else if pyIsSpace c && isTermOpt prev then
      acc.reverse :: sentGo [] none true rest
    else sentGo (c :: acc) (some c) false rest

def sentSplit (cs : List Char) : List (List Char) := sentGo [] none false cs

/-- The processed form of one line: markers stripped, whitespace trimmed. -/
def lineCore (line : List Char) : List Char :=
  pyStrip (stripNumbered (stripBullet line))

/-- The per-line body of `_extract_statements`: strip markers, drop short
lines, split into sentences, strip each, keep the ones of length ≥ 10. -/
def processLine (line : List Char) : List (List Char) :=
  let l := lineCore line
  if l.length < 10 then []
  else ((sentSplit l).map pyStrip).filter (fun s => 10 ≤ s.length)

def concatAll : List (List α) → List α
  | [] => []
  | l :: ls => l ++ concatAll ls

/-- `_extract_statements`: split the stripped text into lines, process each
line, and concatenate the per-line statements in order. -/
def _extract_statements (text : String) : List String :=
  (concatAll ((splitNl (pyStrip text.data)).map processLine)).map (fun cs => ⟨cs⟩)

/-! ### Tag inference (`_extract_tags`) -/

/-- The fixed topic table of `_extract_tags`, with each regex expanded into
boundary-annotated literal alternatives (top-level `|` binds the `\b`s to the
first and last alternative only, exactly as in the Python patterns). -/
def tagTable : List (String × List PatAlt) :=
  [("python", [kw "python"]),
   ("javascript", [⟨true, lits "javascript", false⟩, ⟨false, lits "js", false⟩,
                   ⟨false, lits "node.js", false⟩, ⟨false, lits "nodejs", false⟩,
                   ⟨false, lits "typescript", false⟩, ⟨false, lits "ts", true⟩]),
   ("docker", [kw "docker"]),
   ("postgresql", [kw "postgresql", kw "postgres", kw "postgre"]),
   ("react", [kw "react"]),
   ("aws", [kw "aws"]),
   ("linux", [kw "linux"]),
   ("git", [kw "github", kw "gitlab", kw "git"]),
   ("api", [⟨true, lits "api", false⟩, ⟨false, lits "rest", false⟩,
            ⟨false, lits "graphql", true⟩]),
   ("database", [⟨true, lits "database", false⟩, ⟨false, lits "db", false⟩,
                 ⟨false, lits "sql", false⟩, ⟨false, lits "mysql", false⟩,
                 ⟨false, lits "mongo", true⟩]),
   ("testing", [kw "testing", kw "tests", kw "test"]),
   ("deployment", [kw "deployment", kw "deploying", kw "deploy"]),
   ("security", [⟨true, lits "security", false⟩,
                 ⟨false, lits "authentication", true⟩, ⟨false, lits "auth", true⟩]),
   ("frontend", [⟨true, lits "frontend", false⟩, ⟨false, lits "front-end", false⟩,
                 ⟨false, lits "css", false⟩, ⟨false, lits "html", true⟩]),
   ("backend", [⟨true, lits "backend", false⟩, ⟨false, lits "back-end", false⟩,
                ⟨false, lits "server", true⟩]),
   ("devops", [⟨true, lits "devops", false⟩, ⟨false, lits "cicd", false⟩,
               ⟨false, lits "ci/cd", false⟩, ⟨false, lits "pipeline", true⟩]),
   ("ai", [⟨true, lits "ai", false⟩, ⟨false, lits "ml", false⟩,
           ⟨false, lits "llm", false⟩,
           ⟨false, lits "machine" ++ [PItem.anyNoNl] ++ lits "learning", true⟩]),
   ("coding-style", [⟨true, lits "style", false⟩, ⟨false, lits "convention", false⟩,
                     ⟨false, lits "pattern", false⟩,
                     ⟨false, lits "clean" ++ [PItem.anyNoNl] ++ lits "code", true⟩])]

/-- `_extract_tags`: collect the table keys whose pattern matches the
lowercased statement, in table order. -/
def _extract_tags (text : String) : List String :=
  let lower := lowerChars text
  (tagTable.filter (fun p => patSearch p.2 lower)).map Prod.fst

/-! ### Data model

Tables are lists in insertion order.  `gen_random_uuid()` is modelled by a
per-store counter, and `NOW()` by a `clock` counter that ticks once per
operation — inside one transaction (one operation) every `NOW()` reads the
same value, exactly as Postgres's transaction-scoped `now()`. -/

structure Conversation where
  id : Nat
  platform : String
  title : Option String
  summary : Option String
  tags : List String
  createdAt : Nat
deriving DecidableEq

structure MessageRow where
  convId : Nat
  role : String
  content : String
  createdAt : Nat
deriving DecidableEq

structure DB where
  convs : List Conversation
  msgs : List MessageRow
  nextConvId : Nat
  clock : Nat

structure KItem where
  id : Nat
  category : String
  content : String
  tags : List String
  sourcePlatform : Option String
  createdAt : Nat
deriving DecidableEq

structure KStore where
  items : List KItem
  nextId : Nat
  clock : Nat

/-- The store's full-text match predicate (`to_tsvector(doc) @@
plainto_tsquery(query)`), an external primitive. -/
abbrev FtMatch := String → String → Bool

/-- The store's relevance score (`ts_rank`), an external primitive. -/
abbrev FtRank := String → String → ℚ

/-- Python slice `s[:n]`. -/
def strTake (n : Nat) (s : String) : String := ⟨s.data.take n⟩

/-- `content[:100] + "..." if len(content) > 100 else content`. -/
def truncate100 (s : String) : String :=
  if s.length > 100 then strTake 100 s ++ "..." else s

/-- The searchable document of a conversation:
`coalesce(title,'') || ' ' || coalesce(summary,'')`. -/
def convDoc (c : Conversation) : String :=
  c.title.getD "" ++ " " ++ c.summary.getD ""

/-- SQL `MAX` over a group of scores (groups are never empty; the `[]` case is
arbitrary). -/
def listMax : List ℚ → ℚ
  | [] => 0
  | [x] => x
  | x :: y :: xs => max x (listMax (y :: xs))

/-! ### Ordering relations used by `ORDER BY` clauses -/

/-- `ORDER BY rank DESC, created_at DESC`. -/
def rankedRel (rank : α → ℚ) (created : α → Nat) (a b : α) : Prop :=
  rank b < rank a ∨ (rank a = rank b ∧ created b ≤ created a)

instance (rank : α → ℚ) (created : α → Nat) : DecidableRel (rankedRel rank created) :=
  fun a b =>
    inferInstanceAs (Decidable (rank b < rank a ∨ (rank a = rank b ∧ created b ≤ created a)))

/-- `ORDER BY created_at` (ascending) on messages. -/
def msgChronoRel (a b : MessageRow) : Prop := a.createdAt ≤ b.createdAt

instance : DecidableRel msgChronoRel := fun a b => Nat.decLe a.createdAt b.createdAt

/-- Lexicographic codepoint comparison (Python's `<=` on `str`). -/
def charListLe : List Char → List Char → Bool
  | [], _ => true
  | _ :: _, [] => false
  | a :: as, b :: bs =>
    if a.toNat < b.toNat then true
    else if a.toNat = b.toNat then charListLe as bs
    else false

/-- Python `sorted` order on strings. -/
def strLeRel (a b : String) : Prop := charListLe a.data b.data = true

instance : DecidableRel strLeRel := fun a b =>
  inferInstanceAs (Decidable (charListLe a.data b.data = true))

/-! ### Conversation operations -/

structure MsgInput where
  role : String
  content : String
deriving DecidableEq

structure SaveConvResult where
  id : Nat
  platform : String
  title : Option String
  messageCount : Nat
  createdAt : Nat
deriving DecidableEq

/-- `save_conversation`: insert the conversation row and all message rows in
one transaction; every inserted row reads the same `NOW()`. -/
def save_conversation (db : DB) (platform : String) (messages : List MsgInput)
    (title summary : Option String) (tags : List String) : SaveConvResult × DB :=
  let conv : Conversation := ⟨db.nextConvId, platform, title, summary, tags, db.clock⟩
  let rows := messages.map (fun m => MessageRow.mk conv.id m.role m.content db.clock)
  (⟨conv.id, platform, title, messages.length, db.clock⟩,
   { convs := db.convs ++ [conv], msgs := db.msgs ++ rows,
     nextConvId := db.nextConvId + 1, clock := db.clock + 1 })

/-- The `matched_convs` CTE of `search_conversations`: title/summary matches
ranked on the conversation document, `UNION` (hence `dedup`) one row per
matching message ranked on that message's content, joined to its
conversation. -/
def searchRows (fm : FtMatch) (fr : FtRank) (db : DB) (q : String) :
    List (Conversation × ℚ) :=
  ((db.convs.filter (fun c => fm q (convDoc c))).map (fun c => (c, fr q (convDoc c))) ++
   (db.msgs.filter (fun m => fm q m.content)).filterMap
     (fun m => (db.convs.find? (fun c => c.id == m.convId)).map
       (fun c => (c, fr q m.content)))).dedup

/-- The optional `WHERE platform = $n` clause: always true when no platform
filter was requested. -/
def platOk (platform : Option String) (c : Conversation) : Bool :=
  match platform with
  | none => true
  | some p => c.platform == p

/-- The outer query of `search_conversations` up to `GROUP BY`: optional
platform filter (a no-op filter when absent), then one row per conversation
with `MAX(conv_rank)`. -/
def searchGrouped (fm : FtMatch) (fr : FtRank) (db : DB) (q : String)
    (platform : Option String) : List (Conversation × ℚ) :=
  let rows := (searchRows fm fr db q).filter (fun rc => platOk platform rc.1)
  (rows.map Prod.fst).dedup.map
    (fun c => (c, listMax ((rows.filter (fun rc => rc.1 == c)).map Prod.snd)))

/-- `ORDER BY rank DESC, created_at DESC` over the grouped candidates. -/
def searchRanked (fm : FtMatch) (fr : FtRank) (db : DB) (q : String)
    (platform : Option String) : List (Conversation × ℚ) :=
  List.insertionSort (rankedRel Prod.snd (fun rc => rc.1.createdAt))
    (searchGrouped fm fr db q platform)

/-- Enrichment fetch: ALL messages of one conversation, `ORDER BY created_at`. -/
def msgsChrono (db : DB) (cid : Nat) : List MessageRow :=
  List.insertionSort msgChronoRel (db.msgs.filter (fun m => m.convId == cid))

structure MsgView where
  role : String
  content : String
  createdAt : Nat
deriving DecidableEq

structure SearchResult where
  id : Nat
  platform : String
  title : Option String
  summary : Option String
  tags : List String
  createdAt : Nat
  messages : List MsgView
deriving DecidableEq

/-- The result dict built for each returned conversation. -/
def mkSearchEntry (db : DB) (c : Conversation) : SearchResult :=
  ⟨c.id, c.platform, c.title, c.summary, c.tags, c.createdAt,
   (msgsChrono db c.id).map (fun m => ⟨m.role, m.content, m.createdAt⟩)⟩

/-- `search_conversations`: rank, truncate to `limit`, enrich. -/
def search_conversations (fm : FtMatch) (fr : FtRank) (db : DB) (q : String)
    (platform : Option String) (limit : Nat) : List SearchResult :=
  ((searchRanked fm fr db q platform).take limit).map (fun rc => mkSearchEntry db rc.1)

/-! ### Knowledge operations -/

inductive SKResult where
  | saved (id : Nat) (category : String) (content : String) (createdAt : Nat)
  | skipped (reason : String) (existingId : Nat)
deriving DecidableEq

/-- `save_knowledge_if_new`: the duplicate gate — any stored item of the same
category whose content full-text-matches the candidate content suppresses the
insert and reports that item's id. -/
def save_knowledge_if_new (fm : FtMatch) (st : KStore) (category content : String)
    (tags : List String) (sourcePlatform : Option String) : SKResult × KStore :=
  match st.items.find? (fun it => fm content it.content && it.category == category) with
  | some it => (.skipped "duplicate" it.id, st)
  | none =>
    (.saved st.nextId category (truncate100 content) st.clock,
     { items := st.items ++ [⟨st.nextId, category, content, tags, sourcePlatform, st.clock⟩],
       nextId := st.nextId + 1, clock := st.clock + 1 })

/-- The tag list passed for one statement in `extract_and_save_preferences`:
inferred tags plus the source platform, deduplicated (`list(set(tags))`). -/
def loopTags (stmt : String) (sp : Option String) : List String :=
  (_extract_tags stmt ++ (match sp with | some p => [p] | none => [])).dedup

structure SavedEntry where
  id : Nat
  category : String
  content : String
  createdAt : Nat
deriving DecidableEq

structure SkipEntry where
  content : String
  reason : String
deriving DecidableEq

/-- The per-statement loop of `extract_and_save_preferences`: classify, tag,
run the duplicate gate, and append the result to the saved or skipped list
(skipped entries carry `statement[:80]`). -/
def extractLoop (fm : FtMatch) (sp : Option String) :
    KStore → List String → List SavedEntry × List SkipEntry × KStore
  | st, [] => ([], [], st)
  | st, stmt :: rest =>
    match save_knowledge_if_new fm st (_classify_statement stmt) stmt (loopTags stmt sp) sp with
    | (.saved i c ct ca, st') =>
      let r := extractLoop fm sp st' rest
      (⟨i, c, ct, ca⟩ :: r.1, r.2.1, r.2.2)
    | (.skipped reason _, st') =>
      let r := extractLoop fm sp st' rest
      (r.1, ⟨strTake 80 stmt, reason⟩ :: r.2.1, r.2.2)

/-- Ghost projection of the extraction loop: each statement paired with
whether its duplicate-gate call saved (`true`) or skipped (`false`) it. -/
def extractStatuses (fm : FtMatch) (sp : Option String) :
    KStore → List String → List (String × Bool)
  | _, [] => []
  | st, stmt :: rest =>
    match save_knowledge_if_new fm st (_classify_statement stmt) stmt (loopTags stmt sp) sp with
    | (.saved _ _ _ _, st') => (stmt, true) :: extractStatuses fm sp st' rest
    | (.skipped _ _, st') => (stmt, false) :: extractStatuses fm sp st' rest

structure ExtractReport where
  totalExtracted : Nat
  newlySaved : Nat
  duplicatesSkipped : Nat
  savedEntries : List SavedEntry
  skippedEntries : List SkipEntry
deriving DecidableEq

/-- `extract_and_save_preferences`: segment the text and run the loop. -/
def extract_and_save_preferences (fm : FtMatch) (st : KStore) (text : String)
    (sp : Option String) : ExtractReport × KStore :=
  let statements := _extract_statements text
  let r := extractLoop fm sp st statements
  ({ totalExtracted := statements.length, newlySaved := r.1.length,
     duplicatesSkipped := r.2.1.length, savedEntries := r.1,
     skippedEntries := r.2.1 }, r.2.2)

structure RelEntry where
  id : Nat
  category : String
  content : String
  tags : List String
  sourcePlatform : Option String
  relevance : ℚ
  createdAt : Nat
deriving DecidableEq

/-- `get_related_knowledge`: anchor lookup, then all other items whose content
matches the query built from the anchor content's first 200 characters or
whose tags overlap the anchor's, ranked by relevance then recency. -/
def get_related_knowledge (fm : FtMatch) (fr : FtRank) (parseId : String → Option Nat)
    (ks : KStore) (sid : String) (limit : Nat) : List RelEntry :=
  match parseId sid with
  | none => []
  | some kid =>
    match ks.items.find? (fun it => it.id == kid) with
    | none => []
    | some src =>
      let q : String := strTake 200 src.content
      let rows := ks.items.filter
        (fun it => it.id != kid && (fm q it.content || it.tags.any (src.tags.contains ·)))
      let ranked := rows.map (fun it => (it, fr q it.content))
      ((List.insertionSort (rankedRel Prod.snd (fun p => p.1.createdAt)) ranked).take limit).map
        (fun p => ⟨p.1.id, p.1.category, p.1.content, p.1.tags, p.1.sourcePlatform,
                   p.2, p.1.createdAt⟩)

/-! ### Tag update and delete operations -/

inductive TagUpdateResult where
  | error (msg : String)
  | ok (id : Nat) (tags : List String)
deriving DecidableEq

/-- Python `sorted` over a string collection. -/
def pySortedStrings (l : List String) : List String := List.insertionSort strLeRel l

/-- `update_conversation_tags`: read the current tag set, apply set-union of
added tags and set-difference of removed tags, write back sorted. -/
def update_conversation_tags (parseId : String → Option Nat) (db : DB) (sid : String)
    (addTags removeTags : List String) : TagUpdateResult × DB :=
  match parseId sid with
  | none => (.error "Invalid UUID", db)
  | some cid =>
    match db.convs.find? (fun c => c.id == cid) with
    | none => (.error "Conversation not found", db)
    | some conv =>
      let newTags := pySortedStrings
        (((conv.tags.dedup ++ addTags).dedup).filter (fun t => !removeTags.contains t))
      (.ok cid newTags,
       { db with convs :=
           db.convs.map (fun c => if c.id == cid then { c with tags := newTags } else c) })

/-- `delete_conversation`: `False` on a malformed id, else `result == "DELETE 1"`
after the cascading delete. -/
def delete_conversation (parseId : String → Option Nat) (db : DB) (sid : String) :
    Bool × DB :=
  match parseId sid with
  | none => (false, db)
  | some cid =>
    ((db.convs.filter (fun c => c.id == cid)).length == 1,
     { db with convs := db.convs.filter (fun c => c.id != cid),
               msgs := db.msgs.filter (fun m => m.convId != cid) })

/-- `delete_knowledge_entry`: same shape on the knowledge table. -/
def delete_knowledge_entry (parseId : String → Option Nat) (ks : KStore) (sid : String) :
    Bool × KStore :=
  match parseId sid with
  | none => (false, ks)
  | some kid =>
    ((ks.items.filter (fun it => it.id == kid)).length == 1,
     { ks with items := ks.items.filter (fun it => it.id != kid) })

/-! ### Claim-side definitions (from the spec's words) -/

/-- Spec's rank formula for one conversation (claim C1): the maximum of the
direct title/summary score and the score of each message of that conversation
matching the query. -/
def specRank (fm : FtMatch) (fr : FtRank) (db : DB) (q : String) (c : Conversation) : ℚ :=
  listMax (fr q (convDoc c) ::
    ((db.msgs.filter (fun m => m.convId == c.id && fm q m.content)).map
      (fun m => fr q m.content)))

/-- Split on every single newline (no run collapsing): the naive "lines of the
input" notion the claim quantifies over. -/
def splitCharGo (acc : List Char) : List Char → List (List Char)
  | [] => [acc.reverse]
  | c :: rest =>
    if c = '\n' then acc.reverse :: splitCharGo [] rest
    else splitCharGo (c :: acc) rest

/-- Claim-side line notion: the maximal newline-free segments of the raw
input text. -/
def rawLines (text : String) : List String :=
  (splitCharGo [] text.data).map (fun cs => ⟨cs⟩)

/-- Claim-side "no sentence terminator followed by whitespace" for C5, with
`prev` the previous character. -/
def noDelimB : Option Char → List Char → Bool
  | _, [] => true
  | prev, c :: rest => !(isTermOpt prev && pyIsSpace c) && noDelimB (some c) rest

def noTermWsStr (s : String) : Bool := noDelimB none s.data

/-! ### Concrete witnesses for the external full-text primitives

A token-overlap instance of the store's full-text primitives: the query
matches a document if all of the query's (non-empty) token set occurs among
the document's tokens; the rank is the number of distinct query tokens on a
match and `0` otherwise. -/

def tokGo (acc : List Char) : List Char → List (List Char)
  | [] => if acc.isEmpty then [] else [acc.reverse]
  | c :: rest =>
    if c.isAlphanum then tokGo (c :: acc) rest
    else if acc.isEmpty then tokGo [] rest
    else acc.reverse :: tokGo [] rest

def wTokens (s : String) : List (List Char) := tokGo [] (lowerChars s)

def wMatch (q d : String) : Bool :=
  !(wTokens q).isEmpty && (wTokens q).all (fun t => (wTokens d).contains t)

def wRank (q d : String) : ℚ :=
  if wMatch q d then ((wTokens q).dedup.length : ℚ) else 0

/-- Decimal-digit identifier parser used as the concrete UUID parser in
witnesses: fails distinctly (with `none`) on malformed input. -/
def parseDecGo : Nat → List Char → Option Nat
  | acc, [] => some acc
  | acc, c :: rest =>
    if c.isDigit then parseDecGo (acc * 10 + (c.toNat - 48)) rest else none

def parseDec (s : String) : Option Nat :=
  if s.data.isEmpty then none else parseDecGo 0 s.data

/-! ### Order properties of the sort relations -/

theorem charListLe_refl : ∀ as, charListLe as as = true := by
  intro as
  induction as with
  | nil => rfl
  | cons a as ih => simp [charListLe, ih]

theorem charListLe_total : ∀ as bs, charListLe as bs = true ∨ charListLe bs as = true := by
  intro as
  induction as with
  | nil => intro bs; left; rfl
  | cons a as ih =>
    intro bs
    cases bs with
    | nil => right; rfl
    | cons b bs =>
      simp only [charListLe]
      rcases Nat.lt_trichotomy a.toNat b.toNat with h | h | h
      · left; rw [if_pos h]
      · rcases ih bs with h2 | h2
        · left; rw [if_neg (by omega), if_pos h]; exact h2
        · right; rw [if_neg (by omega), if_pos h.symm]; exact h2
      · right; rw [if_pos h]

theorem charListLe_trans :
    ∀ as bs cs, charListLe as bs = true → charListLe bs cs = true →
      charListLe as cs = true := by
  intro as
  induction as with
  | nil => intro bs cs _ _; rfl
  | cons a as ih =>
    intro bs cs h1 h2
    cases bs with
    | nil => simp [charListLe] at h1
    | cons b bs =>
      cases cs with
      | nil => simp [charListLe] at h2
      | cons c cs =>
        simp only [charListLe] at h1 h2 ⊢
        rcases Nat.lt_trichotomy a.toNat b.toNat with hab | hab | hab
        · rcases Nat.lt_trichotomy b.toNat c.toNat with hbc | hbc | hbc
          · rw [if_pos (by omega)]
          · rw [if_pos (by omega)]
          · rw [if_neg (by omega), if_neg (by omega)] at h2; exact absurd h2 (by simp)
        · rcases Nat.lt_trichotomy b.toNat c.toNat with hbc | hbc | hbc
          · rw [if_pos (by omega)]
          · rw [if_neg (by omega), if_pos (by omega)]
            rw [if_neg (by omega), if_pos hab] at h1
            rw [if_neg (by omega), if_pos hbc] at h2
            exact ih bs cs h1 h2
          · rw [if_neg (by omega), if_neg (by omega)] at h2; exact absurd h2 (by simp)
        · rw [if_neg (by omega), if_neg (by omega)] at h1; exact absurd h1 (by simp)

instance : IsTotal String strLeRel :=
  ⟨fun a b => charListLe_total a.data b.data⟩

instance : IsTrans String strLeRel :=
  ⟨fun a b c => charListLe_trans a.data b.data c.data⟩

instance (rank : α → ℚ) (created : α → Nat) : IsTotal α (rankedRel rank created) := by
  refine ⟨fun a b => ?_⟩
  rcases lt_trichotomy (rank a) (rank b) with h | h | h
  · right; left; exact h
  · rcases Nat.le_total (created b) (created a) with h2 | h2
    · left; right; exact ⟨h, h2⟩
    · right; right; exact ⟨h.symm, h2⟩
  · left; left; exact h

instance (rank : α → ℚ) (created : α → Nat) : IsTrans α (rankedRel rank created) := by
  refine ⟨fun a b c hab hbc => ?_⟩
  rcases hab with h1 | ⟨h1, h1'⟩ <;> rcases hbc with h2 | ⟨h2, h2'⟩
  · exact Or.inl (lt_trans h2 h1)
  · exact Or.inl (h2 ▸ h1)
  · exact Or.inl (h1 ▸ h2)
  · exact Or.inr ⟨h1.trans h2, Nat.le_trans h2' h1'⟩

instance : IsTotal MessageRow msgChronoRel :=
  ⟨fun a b => Nat.le_total a.createdAt b.createdAt⟩

instance : IsTrans MessageRow msgChronoRel :=
  ⟨fun _ _ _ h1 h2 => Nat.le_trans h1 h2⟩

/-! ### Helper lemmas -/

theorem listMax_mem : ∀ {l : List ℚ}, l ≠ [] → listMax l ∈ l
  | [], h => absurd rfl h
  | [x], _ => by simp [listMax]
  | x :: y :: xs, _ => by
    simp only [listMax]
    rcases le_total x (listMax (y :: xs)) with h | h
    · rw [max_eq_right h]
      exact List.mem_cons_of_mem _ (listMax_mem (by simp))
    · rw [max_eq_left h]
      exact List.mem_cons_self _ _

theorem le_listMax : ∀ {l : List ℚ} {x : ℚ}, x ∈ l → x ≤ listMax l
  | [], x, h => by simp at h
  | [y], x, h => by
    rw [List.mem_singleton] at h
    simp [listMax, h]
  | y :: z :: xs, x, h => by
    simp only [listMax]
    rcases List.mem_cons.mp h with rfl | h2
    · exact le_max_left _ _
    · exact le_trans (le_listMax h2) (le_max_right _ _)

theorem listMax_congr {l₁ l₂ : List ℚ} (h1 : l₁ ≠ [])
    (hm : ∀ x, x ∈ l₁ ↔ x ∈ l₂) : listMax l₁ = listMax l₂ := by
  have h2 : l₂ ≠ [] := by
    intro e
    subst e
    exact absurd ((hm _).mp (listMax_mem h1)) (List.not_mem_nil _)
  exact le_antisymm (le_listMax ((hm _).mp (listMax_mem h1)))
    (le_listMax ((hm _).mpr (listMax_mem h2)))

theorem listMax_cons_of_le {a : ℚ} {l : List ℚ} (hl : l ≠ [])
    (ha : a ≤ listMax l) : listMax (a :: l) = listMax l := by
  cases l with
  | nil => exact absurd rfl hl
  | cons y ys => exact max_eq_right ha

theorem find?_append_of_none {p : α → Bool} {l₁ l₂ : List α}
    (h : ∀ x ∈ l₁, p x = false) : (l₁ ++ l₂).find? p = l₂.find? p := by
  induction l₁ with
  | nil => rfl
  | cons a l ih =>
    rw [List.cons_append, List.find?_cons_of_neg _ (by simp [h a (by simp)])]
    exact ih fun x hx => h x (List.mem_cons_of_mem _ hx)

/-- With distinct conversation ids, `find?` by id on the conversations table
returns exactly the member carrying that id. -/
theorem find?_id_eq_some {convs : List Conversation}
    (hids : (convs.map (fun c => c.id)).Nodup) {c : Conversation} (hc : c ∈ convs)
    {i : Nat} : convs.find? (fun x => x.id == i) = some c ↔ c.id = i := by
  constructor
  · intro h
    have := List.find?_some h
    simpa using this
  · intro h
    subst h
    induction convs with
    | nil => exact absurd hc (List.not_mem_nil _)
    | cons a l ih =>
      rcases List.mem_cons.mp hc with rfl | hcl
      · rw [List.find?_cons_of_pos _ (by simp)]
      · have hne : a.id ≠ c.id := by
          intro e
          have : c.id ∈ l.map (fun c => c.id) := List.mem_map_of_mem _ hcl
          rw [List.map_cons] at hids
          exact (List.nodup_cons.mp hids).1 (e ▸ this)
        rw [List.find?_cons_of_neg _ (by simp [hne])]
        exact ih ((List.nodup_cons.mp (by rw [List.map_cons] at hids; exact hids)).2) hcl

theorem dropWhile_head_false {p : α → Bool} :
    ∀ {l : List α} {x : α} {xs : List α}, List.dropWhile p l = x :: xs → p x = false := by
  intro l
  induction l with
  | nil => intro x xs h; simp at h
  | cons a t ih =>
    intro x xs h
    rw [List.dropWhile_cons] at h
    by_cases hp : p a = true
    · rw [if_pos hp] at h
      exact ih h
    · rw [if_neg hp] at h
      cases h
      exact Bool.eq_false_iff.mpr hp

/-- `pyStrip` is `rdropWhile` after `dropWhile`. -/
theorem pyStrip_eq (cs : List Char) :
    pyStrip cs = List.rdropWhile pyIsSpace (List.dropWhile pyIsSpace cs) := rfl

theorem pyStrip_head_false {cs : List Char} {x : Char} {xs : List Char}
    (hr : pyStrip cs = x :: xs) : pyIsSpace x = false := by
  have hpre := List.rdropWhile_prefix pyIsSpace (List.dropWhile pyIsSpace cs)
  rw [← pyStrip_eq, hr] at hpre
  obtain ⟨t, ht⟩ := hpre
  exact dropWhile_head_false (l := cs) (by rw [← ht]; rfl)

theorem dropWhile_pyStrip_eq (cs : List Char) :
    List.dropWhile pyIsSpace (pyStrip cs) = pyStrip cs := by
  cases hr : pyStrip cs with
  | nil => simp
  | cons x xs =>
    rw [List.dropWhile_cons, if_neg (by simp [pyStrip_head_false hr])]

theorem pyStrip_idem (cs : List Char) : pyStrip (pyStrip cs) = pyStrip cs := by
  rw [pyStrip_eq (pyStrip cs), dropWhile_pyStrip_eq, pyStrip_eq cs,
    List.rdropWhile_idempotent]

/-- With no sentence terminator followed by whitespace, the sentence splitter
returns the remaining input as a single piece. -/
theorem sentGo_no_delim :
    ∀ (cs acc : List Char) (prev : Option Char), noDelimB prev cs = true →
      sentGo acc prev false cs = [acc.reverse ++ cs] := by
  intro cs
  induction cs with
  | nil => intro acc prev _; simp [sentGo]
  | cons c rest ih =>
    intro acc prev h
    rw [noDelimB, Bool.and_eq_true, Bool.not_eq_true'] at h
    simp only [sentGo, Bool.false_eq_true, if_false]
    rw [if_neg (by rw [Bool.and_comm] at h; simp [h.1])]
    rw [ih (c :: acc) (some c) h.2]
    simp

theorem lineCore_strip (line : List Char) : pyStrip (lineCore line) = lineCore line := by
  unfold lineCore
  exact pyStrip_idem _

/-- A line whose processed core is long enough and free of sentence delimiters
is kept whole as one statement. -/
theorem processLine_good {line : List Char}
    (h10 : 10 ≤ (lineCore line).length)
    (hnd : noDelimB none (lineCore line) = true) :
    processLine line = [lineCore line] := by
  unfold processLine
  rw [if_neg (by omega)]
  unfold sentSplit
  rw [sentGo_no_delim (lineCore line) [] none hnd]
  simp [lineCore_strip, h10]

theorem concatAll_singletons :
    ∀ {lines : List (List Char)}, (∀ l ∈ lines, processLine l = [lineCore l]) →
      concatAll (lines.map processLine) = lines.map lineCore := by
  intro lines
  induction lines with
  | nil => intro _; rfl
  | cons l ls ih =>
    intro h
    simp only [List.map_cons, concatAll]
    rw [h l (List.mem_cons_self _ _), ih fun x hx => h x (List.mem_cons_of_mem _ hx)]
    rfl

/-! ### Claim theorems -/

/-- C2: every statement matching both the preference keyword rule and the
instruction keyword rule classifies as `"preference"`, never `"instruction"`:
the preference rule is checked first and the first match wins. -/
theorem classify_preference_precedence (text : String)
    (hp : patSearch _PREFERENCE_KEYWORDS (lowerChars text) = true)
    (_hi : patSearch _INSTRUCTION_KEYWORDS (lowerChars text) = true) :
    _classify_statement text = "preference" := by
  simp [_classify_statement, hp]

theorem classify_preference_precedence_witness :
    patSearch _PREFERENCE_KEYWORDS
        (lowerChars "I always use two-space indentation because I prefer it") = true
    ∧ patSearch _INSTRUCTION_KEYWORDS
        (lowerChars "I always use two-space indentation because I prefer it") = true
    ∧ _classify_statement "I always use two-space indentation because I prefer it" =
        "preference" :=
  ⟨by decide, by decide,
    classify_preference_precedence "I always use two-space indentation because I prefer it"
      (by decide) (by decide)⟩

/-- C3: on a store with no item of the same category matching the content,
calling `save_knowledge_if_new` twice with the same category and content
first saves under a fresh id and then skips, reporting that id as the
existing duplicate, with no second row inserted. -/
theorem save_knowledge_if_new_idempotent (fm : FtMatch) (st : KStore)
    (category content : String) (tags : List String) (sp : Option String)
    (hself : fm content content = true)
    (hno : ∀ it ∈ st.items, ¬(fm content it.content = true ∧ it.category = category))
    (hfresh : ∀ it ∈ st.items, it.id < st.nextId) :
    (save_knowledge_if_new fm st category content tags sp).1 =
        .saved st.nextId category (truncate100 content) st.clock
    ∧ (∀ it ∈ st.items, it.id ≠ st.nextId)
    ∧ (save_knowledge_if_new fm st category content tags sp).2.items =
        st.items ++ [⟨st.nextId, category, content, tags, sp, st.clock⟩]
    ∧ (save_knowledge_if_new fm (save_knowledge_if_new fm st category content tags sp).2
        category content tags sp).1 = .skipped "duplicate" st.nextId
    ∧ (save_knowledge_if_new fm (save_knowledge_if_new fm st category content tags sp).2
        category content tags sp).2 =
        (save_knowledge_if_new fm st category content tags sp).2 := by
  have hpred : ∀ it ∈ st.items,
      (fm content it.content && it.category == category) = false := by
    intro it hit
    rcases Bool.eq_false_or_eq_true (fm content it.content) with h | h
    · simp only [h, Bool.true_and, beq_eq_false_iff_ne]
      exact fun e => hno it hit ⟨h, e⟩
    · simp [h]
  have hfind :
      st.items.find? (fun it => fm content it.content && it.category == category) = none :=
    List.find?_eq_none.mpr fun it hit => by simp [hpred it hit]
  have hstep1 : save_knowledge_if_new fm st category content tags sp =
      (.saved st.nextId category (truncate100 content) st.clock,
       { items := st.items ++ [⟨st.nextId, category, content, tags, sp, st.clock⟩],
         nextId := st.nextId + 1, clock := st.clock + 1 }) := by
    simp only [save_knowledge_if_new, hfind]
  have hfind2 :
      (st.items ++ [⟨st.nextId, category, content, tags, sp, st.clock⟩] :
        List KItem).find? (fun it => fm content it.content && it.category == category) =
      some ⟨st.nextId, category, content, tags, sp, st.clock⟩ := by
    rw [find?_append_of_none hpred]
    exact List.find?_cons_of_pos _ (by simp [hself])
  refine ⟨by rw [hstep1], fun it hit => Nat.ne_of_lt (hfresh it hit), by rw [hstep1], ?_, ?_⟩
  · rw [hstep1]
    simp only [save_knowledge_if_new, hfind2]
  · rw [hstep1]
    simp only [save_knowledge_if_new, hfind2]

theorem save_knowledge_if_new_idempotent_witness :
    wMatch "X uses PostgreSQL" "X uses PostgreSQL" = true
    ∧ (save_knowledge_if_new wMatch ⟨[], 0, 0⟩ "fact" "X uses PostgreSQL" [] none).1 =
        .saved 0 "fact" (truncate100 "X uses PostgreSQL") 0
    ∧ (save_knowledge_if_new wMatch
        (save_knowledge_if_new wMatch ⟨[], 0, 0⟩ "fact" "X uses PostgreSQL" [] none).2
        "fact" "X uses PostgreSQL" [] none).1 = .skipped "duplicate" 0 :=
  ⟨by decide,
    (save_knowledge_if_new_idempotent wMatch ⟨[], 0, 0⟩ "fact" "X uses PostgreSQL" [] none
      (by decide) (by simp) (by simp)).1,
    (save_knowledge_if_new_idempotent wMatch ⟨[], 0, 0⟩ "fact" "X uses PostgreSQL" [] none
      (by decide) (by simp) (by simp)).2.2.2.1⟩

/-- C4: the duplicate gate only suppresses within a category — if every stored
item whose content matches the candidate carries a different category, the
candidate is inserted and reported as saved. -/
theorem save_knowledge_crosscategory (fm : FtMatch) (st : KStore)
    (category content : String) (tags : List String) (sp : Option String)
    (h : ∀ it ∈ st.items, fm content it.content = true → it.category ≠ category) :
    (save_knowledge_if_new fm st category content tags sp).1 =
        .saved st.nextId category (truncate100 content) st.clock
    ∧ (save_knowledge_if_new fm st category content tags sp).2.items =
        st.items ++ [⟨st.nextId, category, content, tags, sp, st.clock⟩] := by
  have hfind :
      st.items.find? (fun it => fm content it.content && it.category == category) = none := by
    refine List.find?_eq_none.mpr fun it hit => ?_
    rcases Bool.eq_false_or_eq_true (fm content it.content) with hf | hf
    · simp only [hf, Bool.true_and, ne_eq, beq_iff_eq]
      exact h it hit hf
    · simp [hf]
  constructor <;> simp only [save_knowledge_if_new, hfind]

theorem save_knowledge_crosscategory_witness :
    (∀ it ∈ (⟨[⟨7, "note", "X uses PostgreSQL", [], none, 0⟩], 8, 1⟩ : KStore).items,
      wMatch "X uses PostgreSQL" it.content = true → it.category ≠ "fact")
    ∧ (save_knowledge_if_new wMatch ⟨[⟨7, "note", "X uses PostgreSQL", [], none, 0⟩], 8, 1⟩
        "fact" "X uses PostgreSQL" [] none).1 =
        .saved 8 "fact" (truncate100 "X uses PostgreSQL") 1 :=
  ⟨by decide,
    (save_knowledge_crosscategory wMatch ⟨[⟨7, "note", "X uses PostgreSQL", [], none, 0⟩], 8, 1⟩
      "fact" "X uses PostgreSQL" [] none (by decide)).1⟩

/-- A one-conversation database used to exhibit case-sensitive tag storage. -/
def dbC8 : DB := ⟨[⟨0, "cursor", none, none, [], 0⟩], [], 1, 1⟩

/-- C8 counterexample: adding `"Python"` and `"python"` leaves both in the
stored tag set — two tags equal ignoring case coexist after the update, so
tag deduplication is NOT case-insensitive. -/
theorem update_tags_case_sensitive_ce :
    (update_conversation_tags parseDec dbC8 "0" ["Python", "python"] []).1 =
        .ok 0 ["Python", "python"]
    ∧ ((update_conversation_tags parseDec dbC8 "0" ["Python", "python"] []).2.convs.map
        (fun c => c.tags)) = [["Python", "python"]]
    ∧ "Python" ≠ "python"
    ∧ lowerChars "Python" = lowerChars "python" := by
  refine ⟨by decide, by decide, by decide, by decide⟩

/-- C8 amended: after `update_conversation_tags` succeeds, the stored tag set
is deduplicated under exact string equality (and sorted) — tags differing only
in letter case are distinct and may coexist. -/
theorem update_tags_exact_dedup (parseId : String → Option Nat) (db : DB) (sid : String)
    (addTags removeTags : List String) (cid : Nat) (tags' : List String)
    (h : (update_conversation_tags parseId db sid addTags removeTags).1 = .ok cid tags') :
    tags'.Nodup ∧ tags'.Sorted strLeRel
    ∧ ∀ c ∈ (update_conversation_tags parseId db sid addTags removeTags).2.convs,
        c.id = cid → c.tags = tags' := by
  unfold update_conversation_tags at h ⊢
  cases hp : parseId sid with
  | none => rw [hp] at h; simp at h
  | some cid' =>
    rw [hp] at h
    dsimp only at h ⊢
    cases hf : db.convs.find? (fun c => c.id == cid') with
    | none => rw [hf] at h; simp at h
    | some conv =>
      rw [hf] at h
      dsimp only at h ⊢
      simp only [TagUpdateResult.ok.injEq] at h
      obtain ⟨rfl, htags⟩ := h
      subst htags
      refine ⟨?_, List.sorted_insertionSort _ _, ?_⟩
      · exact (List.perm_insertionSort strLeRel _).nodup_iff.mpr
          ((List.nodup_dedup _).filter _)
      · intro c hc hcid
        rcases List.mem_map.mp hc with ⟨c₀, _, rfl⟩
        by_cases e : c₀.id == cid'
        · simp [e]
        · rw [if_neg e] at hcid ⊢
          exact absurd (by simpa using hcid) (by simpa using e)

theorem update_tags_exact_dedup_witness :
    (["Python", "python"] : List String).Nodup
    ∧ (["Python", "python"] : List String).Sorted strLeRel
    ∧ ∀ c ∈ (update_conversation_tags parseDec dbC8 "0" ["Python", "python"] []).2.convs,
        c.id = 0 → c.tags = ["Python", "python"] :=
  update_tags_exact_dedup parseDec dbC8 "0" ["Python", "python"] [] 0 ["Python", "python"]
    (by decide)

def dbEmpty : DB := ⟨[], [], 0, 0⟩

def ksEmpty : KStore := ⟨[], 0, 0⟩

/-- C9 counterexample: a malformed identifier and a well-formed identifier
matching nothing produce the SAME return value (`False`) from both delete
operations — the caller cannot tell the two outcomes apart. -/
theorem delete_result_not_distinct_ce :
    (delete_conversation parseDec dbEmpty "xx").1 = (delete_conversation parseDec dbEmpty "5").1
    ∧ (delete_knowledge_entry parseDec ksEmpty "xx").1 =
        (delete_knowledge_entry parseDec ksEmpty "5").1
    ∧ parseDec "xx" = none
    ∧ parseDec "5" = some 5
    ∧ dbEmpty.convs = []
    ∧ ksEmpty.items = [] := by
  refine ⟨by decide, by decide, by decide, by decide, rfl, rfl⟩

/-- C9 amended: the delete operations return `False` both for a malformed
identifier and for a well-formed identifier matching no stored entity — the
two failure modes are indistinguishable from the returned value — and `True`
exactly when one matching entity was deleted. -/
theorem delete_failure_modes (parseId : String → Option Nat) (db : DB) (ks : KStore)
    (sid : String) :
    (parseId sid = none →
      delete_conversation parseId db sid = (false, db)
      ∧ delete_knowledge_entry parseId ks sid = (false, ks))
    ∧ (∀ i, parseId sid = some i → (∀ c ∈ db.convs, c.id ≠ i) →
        (delete_conversation parseId db sid).1 = false)
    ∧ (∀ i, parseId sid = some i →
        (db.convs.filter (fun c => c.id == i)).length = 1 →
        (delete_conversation parseId db sid).1 = true)
    ∧ (∀ i, parseId sid = some i → (∀ it ∈ ks.items, it.id ≠ i) →
        (delete_knowledge_entry parseId ks sid).1 = false)
    ∧ (∀ i, parseId sid = some i →
        (ks.items.filter (fun it => it.id == i)).length = 1 →
        (delete_knowledge_entry parseId ks sid).1 = true) := by
  refine ⟨fun h => ?_, fun i h hno => ?_, fun i h hlen => ?_, fun i h hno => ?_,
    fun i h hlen => ?_⟩
  · constructor <;> simp [delete_conversation, delete_knowledge_entry, h]
  · have hnil : db.convs.filter (fun c => c.id == i) = [] := by
      rw [List.filter_eq_nil_iff]
      intro c hc
      simp [hno c hc]
    simp [delete_conversation, h, hnil]
  · simp [delete_conversation, h, hlen]
  · have hnil : ks.items.filter (fun it => it.id == i) = [] := by
      rw [List.filter_eq_nil_iff]
      intro it hit
      simp [hno it hit]
    simp [delete_knowledge_entry, h, hnil]
  · simp [delete_knowledge_entry, h, hlen]

/-- A database holding one conversation with id 5, for the success case. -/
def dbOne : DB := ⟨[⟨5, "cursor", none, none, [], 0⟩], [], 6, 1⟩

/-- A store holding one knowledge item with id 5, for the success case. -/
def ksOne : KStore := ⟨[⟨5, "fact", "X uses PostgreSQL", [], none, 0⟩], 6, 1⟩

theorem delete_failure_modes_witness :
    delete_conversation parseDec dbEmpty "xx" = (false, dbEmpty)
    ∧ delete_knowledge_entry parseDec ksEmpty "xx" = (false, ksEmpty)
    ∧ (delete_conversation parseDec dbEmpty "5").1 = false
    ∧ (delete_conversation parseDec dbOne "5").1 = true
    ∧ (delete_knowledge_entry parseDec ksEmpty "5").1 = false
    ∧ (delete_knowledge_entry parseDec ksOne "5").1 = true :=
  ⟨((delete_failure_modes parseDec dbEmpty ksEmpty "xx").1 (by decide)).1,
   ((delete_failure_modes parseDec dbEmpty ksEmpty "xx").1 (by decide)).2,
   (delete_failure_modes parseDec dbEmpty ksEmpty "5").2.1 5 (by decide)
     (fun c hc => absurd hc (List.not_mem_nil c)),
   (delete_failure_modes parseDec dbOne ksEmpty "5").2.2.1 5 (by decide) (by decide),
   (delete_failure_modes parseDec dbEmpty ksEmpty "5").2.2.2.1 5 (by decide)
     (fun it hit => absurd hit (List.not_mem_nil it)),
   (delete_failure_modes parseDec dbEmpty ksOne "5").2.2.2.2 5 (by decide) (by decide)⟩

/-- C10 loop invariant: each segmented statement contributes exactly one entry
to exactly one of the two result lists, with the recorded contents and
reasons. -/
theorem extractLoop_spec (fm : FtMatch) (sp : Option String) :
    ∀ (stmts : List String) (st : KStore),
      (extractLoop fm sp st stmts).1.length + (extractLoop fm sp st stmts).2.1.length =
          stmts.length
      ∧ (extractStatuses fm sp st stmts).map Prod.fst = stmts
      ∧ (extractLoop fm sp st stmts).1.map (fun e => e.content) =
          ((extractStatuses fm sp st stmts).filter (fun p => p.2)).map
            (fun p => truncate100 p.1)
      ∧ (extractLoop fm sp st stmts).2.1.map (fun e => e.content) =
          ((extractStatuses fm sp st stmts).filter (fun p => !p.2)).map
            (fun p => strTake 80 p.1)
      ∧ (extractLoop fm sp st stmts).2.1.map (fun e => e.reason) =
          ((extractStatuses fm sp st stmts).filter (fun p => !p.2)).map
            (fun _ => "duplicate") := by
  intro stmts
  induction stmts with
  | nil => intro st; simp [extractLoop, extractStatuses]
  | cons stmt rest ih =>
    intro st
    cases hfind : st.items.find?
        (fun it => fm stmt it.content && it.category == _classify_statement stmt) with
    | none =>
      have hgate : save_knowledge_if_new fm st (_classify_statement stmt) stmt
          (loopTags stmt sp) sp =
          (.saved st.nextId (_classify_statement stmt) (truncate100 stmt) st.clock,
           { items := st.items ++
               [⟨st.nextId, _classify_statement stmt, stmt, loopTags stmt sp, sp, st.clock⟩],
             nextId := st.nextId + 1, clock := st.clock + 1 }) := by
        simp only [save_knowledge_if_new, hfind]
      obtain ⟨ih1, ih2, ih3, ih4, ih5⟩ := ih
        { items := st.items ++
            [⟨st.nextId, _classify_statement stmt, stmt, loopTags stmt sp, sp, st.clock⟩],
          nextId := st.nextId + 1, clock := st.clock + 1 }
      simp only [extractLoop, extractStatuses, hgate]
      refine ⟨?_, by simpa using ih2, by simpa using ih3, by simpa using ih4,
        by simpa using ih5⟩
      simp only [List.length_cons]
      omega
    | some it =>
      have hgate : save_knowledge_if_new fm st (_classify_statement stmt) stmt
          (loopTags stmt sp) sp = (.skipped "duplicate" it.id, st) := by
        simp only [save_knowledge_if_new, hfind]
      obtain ⟨ih1, ih2, ih3, ih4, ih5⟩ := ih st
      simp only [extractLoop, extractStatuses, hgate]
      refine ⟨?_, by simpa using ih2, by simpa using ih3, by simpa using ih4,
        by simpa using ih5⟩
      simp only [List.length_cons]
      omega

/-- C10: the report of `extract_and_save_preferences` is consistent —
`total_extracted` is the number of segmented statements and equals
`newly_saved + duplicates_skipped`; the entry lists have exactly those
lengths, and each segmented statement appears (suitably truncated) in exactly
one of the two entry lists, in order. -/
theorem extract_report_consistent (fm : FtMatch) (st : KStore) (text : String)
    (sp : Option String) :
    (extract_and_save_preferences fm st text sp).1.totalExtracted =
        (_extract_statements text).length
    ∧ (extract_and_save_preferences fm st text sp).1.totalExtracted =
        (extract_and_save_preferences fm st text sp).1.newlySaved +
          (extract_and_save_preferences fm st text sp).1.duplicatesSkipped
    ∧ (extract_and_save_preferences fm st text sp).1.newlySaved =
        (extract_and_save_preferences fm st text sp).1.savedEntries.length
    ∧ (extract_and_save_preferences fm st text sp).1.duplicatesSkipped =
        (extract_and_save_preferences fm st text sp).1.skippedEntries.length
    ∧ (extractStatuses fm sp st (_extract_statements text)).map Prod.fst =
        _extract_statements text
    ∧ (extract_and_save_preferences fm st text sp).1.savedEntries.map (fun e => e.content) =
        ((extractStatuses fm sp st (_extract_statements text)).filter (fun p => p.2)).map
          (fun p => truncate100 p.1)
    ∧ (extract_and_save_preferences fm st text sp).1.skippedEntries.map (fun e => e.content) =
        ((extractStatuses fm sp st (_extract_statements text)).filter (fun p => !p.2)).map
          (fun p => strTake 80 p.1)
    ∧ (extract_and_save_preferences fm st text sp).1.skippedEntries.map (fun e => e.reason) =
        ((extractStatuses fm sp st (_extract_statements text)).filter (fun p => !p.2)).map
          (fun _ => "duplicate") := by
  obtain ⟨h1, h2, h3, h4, h5⟩ := extractLoop_spec fm sp (_extract_statements text) st
  exact ⟨rfl, by simpa using h1.symm, rfl, rfl, h2, h3, h4, h5⟩

/-- A three-line input whose middle line is ten spaces: every raw line is
non-empty, at least 10 characters, and free of terminator-plus-whitespace. -/
def ex5 : String := "aaaaaaaaaa\n          \nbbbbbbbbbb"

/-- C5 counterexample: the input has 3 non-empty lines, each of length ≥ 10
with no sentence terminator followed by whitespace, yet `_extract_statements`
returns only 2 statements — the whitespace-only line is trimmed away and
dropped by the length gate. -/
theorem extract_statements_line_count_ce :
    (∀ l ∈ rawLines ex5, l ≠ "" ∧ 10 ≤ l.length ∧ noTermWsStr l = true)
    ∧ (rawLines ex5).length = 3
    ∧ (_extract_statements ex5).length = 2 := by
  refine ⟨by decide, by decide, by decide⟩

/-- C5 amended: if every line of the (stripped) input, after stripping list
markers and trimming whitespace, has length ≥ 10 and contains no sentence
terminator followed by whitespace, then `_extract_statements` returns exactly
one statement per line — the processed line — in input order, and no returned
statement is empty or whitespace-only. -/
theorem extract_statements_good_lines (text : String)
    (H : ∀ line ∈ splitNl (pyStrip text.data),
      10 ≤ (lineCore line).length ∧ noDelimB none (lineCore line) = true) :
    _extract_statements text =
        (splitNl (pyStrip text.data)).map (fun line => (⟨lineCore line⟩ : String))
    ∧ (_extract_statements text).length = (splitNl (pyStrip text.data)).length
    ∧ ∀ s ∈ _extract_statements text,
        s.data ≠ [] ∧ s.data.any (fun c => !pyIsSpace c) = true := by
  have hline : ∀ line ∈ splitNl (pyStrip text.data), processLine line = [lineCore line] :=
    fun line hl => processLine_good (H line hl).1 (H line hl).2
  have hmain : _extract_statements text =
      (splitNl (pyStrip text.data)).map (fun line => (⟨lineCore line⟩ : String)) := by
    unfold _extract_statements
    rw [concatAll_singletons hline, List.map_map]
    rfl
  refine ⟨hmain, by rw [hmain, List.length_map], ?_⟩
  intro s hs
  rw [hmain] at hs
  rcases List.mem_map.mp hs with ⟨line, hl, rfl⟩
  have h10 := (H line hl).1
  cases hc : lineCore line with
  | nil => rw [hc] at h10; simp at h10
  | cons x xs =>
    have hx : pyIsSpace x = false := by
      have : pyStrip (stripNumbered (stripBullet line)) = x :: xs := hc
      exact pyStrip_head_false this
    constructor
    · show x :: xs ≠ []
      simp
    · show (x :: xs).any (fun c => !pyIsSpace c) = true
      rw [List.any_cons, hx]
      simp

theorem extract_statements_good_lines_witness :
    (∀ line ∈ splitNl (pyStrip "I prefer tabs over spaces\nThe server listens on port 8080.".data),
      10 ≤ (lineCore line).length ∧ noDelimB none (lineCore line) = true)
    ∧ _extract_statements "I prefer tabs over spaces\nThe server listens on port 8080." =
        (splitNl (pyStrip "I prefer tabs over spaces\nThe server listens on port 8080.".data)).map
          (fun line => (⟨lineCore line⟩ : String)) :=
  ⟨by decide,
    (extract_statements_good_lines "I prefer tabs over spaces\nThe server listens on port 8080."
      (by decide)).1⟩

theorem wRank_zero_of_not_match : ∀ a b, wMatch a b = false → wRank a b = 0 := by
  intro a b h
  simp [wRank, h]

theorem wRank_nonneg : ∀ a b, 0 ≤ wRank a b := by
  intro a b
  unfold wRank
  split
  · exact Nat.cast_nonneg _
  · exact le_refl 0

/-- C6: for an existing anchor item, `get_related_knowledge` never returns the
anchor; every returned item matches the query built from the first 200
characters of the anchor's content or shares a tag with it; every returned
item carries the full-text relevance of that query against its content, which
is 0 for tag-only matches with no text match; and the output is ordered by
relevance descending, then creation time descending. -/
theorem get_related_knowledge_sound (fm : FtMatch) (fr : FtRank)
    (parseId : String → Option Nat) (ks : KStore) (sid : String) (limit : Nat)
    (kid : Nat) (src : KItem)
    (h0 : ∀ a b, fm a b = false → fr a b = 0)
    (hp : parseId sid = some kid)
    (hs : ks.items.find? (fun it => it.id == kid) = some src) :
    (∀ e ∈ get_related_knowledge fm fr parseId ks sid limit, e.id ≠ src.id)
    ∧ (∀ e ∈ get_related_knowledge fm fr parseId ks sid limit,
        fm (strTake 200 src.content) e.content = true
        ∨ e.tags.any (src.tags.contains ·) = true)
    ∧ (∀ e ∈ get_related_knowledge fm fr parseId ks sid limit,
        e.relevance = fr (strTake 200 src.content) e.content)
    ∧ (∀ e ∈ get_related_knowledge fm fr parseId ks sid limit,
        fm (strTake 200 src.content) e.content = false → e.relevance = 0)
    ∧ (get_related_knowledge fm fr parseId ks sid limit).Sorted
        (rankedRel (fun e => e.relevance) (fun e => e.createdAt)) := by
  have hsrc : src.id = kid := by simpa using List.find?_some hs
  have hdef : get_related_knowledge fm fr parseId ks sid limit =
      ((List.insertionSort (rankedRel Prod.snd (fun p => p.1.createdAt))
        ((ks.items.filter (fun it => it.id != kid &&
            (fm (strTake 200 src.content) it.content ||
             it.tags.any (src.tags.contains ·)))).map
          (fun it => (it, fr (strTake 200 src.content) it.content)))).take limit).map
        (fun p => ⟨p.1.id, p.1.category, p.1.content, p.1.tags, p.1.sourcePlatform,
                   p.2, p.1.createdAt⟩) := by
    simp only [get_related_knowledge, hp, hs]
  have hmem : ∀ e ∈ get_related_knowledge fm fr parseId ks sid limit,
      ∃ it, it ∈ ks.items ∧ it.id ≠ kid
        ∧ (fm (strTake 200 src.content) it.content = true
           ∨ it.tags.any (src.tags.contains ·) = true)
        ∧ e = ⟨it.id, it.category, it.content, it.tags, it.sourcePlatform,
               fr (strTake 200 src.content) it.content, it.createdAt⟩ := by
    intro e he
    rw [hdef] at he
    rcases List.mem_map.mp he with ⟨p, hp2, rfl⟩
    have hp3 := List.mem_of_mem_take hp2
    rw [List.mem_insertionSort] at hp3
    rcases List.mem_map.mp hp3 with ⟨it, hit, rfl⟩
    rcases List.mem_filter.mp hit with ⟨hmem, hcond⟩
    rw [Bool.and_eq_true, bne_iff_ne, Bool.or_eq_true] at hcond
    exact ⟨it, hmem, hcond.1, hcond.2, rfl⟩
  refine ⟨?_, ?_, ?_, ?_, ?_⟩
  · intro e he
    rcases hmem e he with ⟨it, _, hne, _, rfl⟩
    rw [hsrc]
    exact hne
  · intro e he
    rcases hmem e he with ⟨it, _, _, hor, rfl⟩
    exact hor
  · intro e he
    rcases hmem e he with ⟨it, _, _, _, rfl⟩
    rfl
  · intro e he hf
    rcases hmem e he with ⟨it, _, _, _, rfl⟩
    exact h0 _ _ hf
  · rw [hdef]
    refine List.Pairwise.map _ (fun a b h => ?_)
      ((List.sorted_insertionSort _ _).sublist (List.take_sublist _ _))
    exact h

def kAnchor : KItem := ⟨0, "fact", "X uses PostgreSQL", ["db"], none, 0⟩

def ksRel : KStore :=
  ⟨[kAnchor, ⟨1, "fact", "Y uses PostgreSQL", ["db"], none, 1⟩,
    ⟨2, "note", "unrelated thing", ["db"], none, 2⟩], 3, 3⟩

theorem get_related_knowledge_sound_witness :
    (∀ e ∈ get_related_knowledge wMatch wRank parseDec ksRel "0" 10, e.id ≠ kAnchor.id)
    ∧ (∀ e ∈ get_related_knowledge wMatch wRank parseDec ksRel "0" 10,
        wMatch (strTake 200 kAnchor.content) e.content = true
        ∨ e.tags.any (kAnchor.tags.contains ·) = true)
    ∧ (∀ e ∈ get_related_knowledge wMatch wRank parseDec ksRel "0" 10,
        e.relevance = wRank (strTake 200 kAnchor.content) e.content)
    ∧ (∀ e ∈ get_related_knowledge wMatch wRank parseDec ksRel "0" 10,
        wMatch (strTake 200 kAnchor.content) e.content = false → e.relevance = 0)
    ∧ (get_related_knowledge wMatch wRank parseDec ksRel "0" 10).Sorted
        (rankedRel (fun e => e.relevance) (fun e => e.createdAt)) :=
  get_related_knowledge_sound wMatch wRank parseDec ksRel "0" 10 0 kAnchor
    wRank_zero_of_not_match (by decide) (by decide)

/-- C7: every conversation returned by a search is enriched with ALL of its
messages (membership for every stored message of that conversation, matching
or not) in chronological order; and concretely, saving a conversation with two
messages and searching a term contained in the first message's content returns
that conversation with both messages attached in their original order. -/
theorem search_enrichment_all_messages :
    (∀ (fm : FtMatch) (fr : FtRank) (db : DB) (q : String) (platform : Option String)
        (limit : Nat), ∀ res ∈ search_conversations fm fr db q platform limit,
        (∀ m ∈ db.msgs, m.convId = res.id →
          (⟨m.role, m.content, m.createdAt⟩ : MsgView) ∈ res.messages)
        ∧ List.Pairwise (fun a b : MsgView => a.createdAt ≤ b.createdAt) res.messages)
    ∧ search_conversations wMatch wRank
        (save_conversation ⟨[], [], 0, 0⟩ "cursor"
          [⟨"user", "hello world"⟩, ⟨"assistant", "goodbye"⟩] none none []).2
        "hello" none 10 =
      [⟨0, "cursor", none, none, [], 0,
        [⟨"user", "hello world", 0⟩, ⟨"assistant", "goodbye", 0⟩]⟩] := by
  constructor
  · intro fm fr db q platform limit res hres
    rcases List.mem_map.mp hres with ⟨rc, _, rfl⟩
    simp only [mkSearchEntry]
    constructor
    · intro m hm hid
      have hmem : m ∈ msgsChrono db rc.1.id := by
        unfold msgsChrono
        rw [List.mem_insertionSort, List.mem_filter]
        exact ⟨hm, by simp [hid]⟩
      exact List.mem_map_of_mem _ hmem
    · exact List.Pairwise.map _ (fun a b h => h)
        (List.sorted_insertionSort msgChronoRel
          (db.msgs.filter (fun m => m.convId == rc.1.id)))
  · decide

/-- Membership in the `matched_convs` CTE rows: a row is either a direct
title/summary match ranked on the conversation document, or a message match
ranked on that message's content and joined to its conversation. -/
theorem mem_searchRows {fm : FtMatch} {fr : FtRank} {db : DB} {q : String}
    {x : Conversation × ℚ} :
    x ∈ searchRows fm fr db q ↔
      ((x.1 ∈ db.convs ∧ fm q (convDoc x.1) = true ∧ x.2 = fr q (convDoc x.1))
       ∨ ∃ m ∈ db.msgs, fm q m.content = true
           ∧ db.convs.find? (fun c => c.id == m.convId) = some x.1
           ∧ x.2 = fr q m.content) := by
  obtain ⟨x1, x2⟩ := x
  dsimp only
  unfold searchRows
  rw [List.mem_dedup, List.mem_append]
  constructor
  · rintro (h | h)
    · rcases List.mem_map.mp h with ⟨c, hc, he⟩
      rcases List.mem_filter.mp hc with ⟨hc1, hc2⟩
      cases he
      exact Or.inl ⟨hc1, hc2, rfl⟩
    · rcases List.mem_filterMap.mp h with ⟨m, hm, hopt⟩
      rcases List.mem_filter.mp hm with ⟨hm1, hm2⟩
      rcases Option.map_eq_some'.mp hopt with ⟨c, hfind, he⟩
      cases he
      exact Or.inr ⟨m, hm1, hm2, hfind, rfl⟩
  · rintro (⟨h1, h2, h3⟩ | ⟨m, hm1, hm2, hfind, h3⟩)
    · left
      rw [List.mem_map]
      subst h3
      exact ⟨x1, List.mem_filter.mpr ⟨h1, h2⟩, rfl⟩
    · right
      rw [List.mem_filterMap]
      subst h3
      exact ⟨m, List.mem_filter.mpr ⟨hm1, hm2⟩, by rw [hfind]; rfl⟩

/-- C1: every conversation in the (limit-truncated) ranked candidate list of
`search_conversations` carries as rank the maximum of its direct
title/summary relevance and the relevance of each of its messages matching
the query; the list is sorted by rank descending with creation-time-descending
tie-break, has at most `limit` entries, and the returned results are exactly
its enrichment. -/
theorem search_conversations_ranking (fm : FtMatch) (fr : FtRank) (db : DB)
    (q : String) (platform : Option String) (limit : Nat)
    (h0 : ∀ a b, fm a b = false → fr a b = 0)
    (hnn : ∀ a b, 0 ≤ fr a b)
    (hids : (db.convs.map (fun c => c.id)).Nodup) :
    (∀ rc ∈ (searchRanked fm fr db q platform).take limit,
        rc.2 = specRank fm fr db q rc.1)
    ∧ ((searchRanked fm fr db q platform).take limit).Sorted
        (rankedRel Prod.snd (fun rc => rc.1.createdAt))
    ∧ ((searchRanked fm fr db q platform).take limit).length ≤ limit
    ∧ search_conversations fm fr db q platform limit =
        ((searchRanked fm fr db q platform).take limit).map
          (fun rc => mkSearchEntry db rc.1) := by
  refine ⟨?_, ?_, List.length_take_le _ _, rfl⟩
  case refine_2 =>
    exact (List.sorted_insertionSort _ _).sublist (List.take_sublist _ _)
  intro rc hrc
  have hrc2 : rc ∈ searchGrouped fm fr db q platform := by
    have h := List.mem_of_mem_take hrc
    unfold searchRanked at h
    rwa [List.mem_insertionSort] at h
  simp only [searchGrouped] at hrc2
  rcases List.mem_map.mp hrc2 with ⟨c, hckeys, he⟩
  subst he
  dsimp only
  rw [List.mem_dedup] at hckeys
  rcases List.mem_map.mp hckeys with ⟨x₀, hx₀, hx₀c⟩
  rcases List.mem_filter.mp hx₀ with ⟨hx₀0, hx₀p⟩
  rw [hx₀c] at hx₀p
  have hcconv : c ∈ db.convs := by
    rcases mem_searchRows.mp hx₀0 with ⟨h1, _, _⟩ | ⟨m, _, _, hfind, _⟩
    · rwa [hx₀c] at h1
    · have := List.mem_of_find?_eq_some hfind
      rwa [hx₀c] at this
  have hx₀mem : x₀ ∈ ((searchRows fm fr db q).filter
      (fun rc => platOk platform rc.1)).filter (fun x => x.1 == c) :=
    List.mem_filter.mpr ⟨hx₀, by simp [hx₀c]⟩
  have hranks_ne :
      (((searchRows fm fr db q).filter (fun rc => platOk platform rc.1)).filter
        (fun x => x.1 == c)).map Prod.snd ≠ [] :=
    List.ne_nil_of_mem (List.mem_map_of_mem _ hx₀mem)
  have M : ∀ r : ℚ,
      r ∈ (((searchRows fm fr db q).filter (fun rc => platOk platform rc.1)).filter
        (fun x => x.1 == c)).map Prod.snd ↔
      ((fm q (convDoc c) = true ∧ r = fr q (convDoc c))
       ∨ r ∈ (db.msgs.filter (fun m => m.convId == c.id && fm q m.content)).map
           (fun m => fr q m.content)) := by
    intro r
    constructor
    · intro hr
      rcases List.mem_map.mp hr with ⟨x, hx, hxr⟩
      rcases List.mem_filter.mp hx with ⟨hxrows, hxc⟩
      rcases List.mem_filter.mp hxrows with ⟨hx0, _⟩
      have hxc' : x.1 = c := by simpa using hxc
      rcases mem_searchRows.mp hx0 with ⟨_, hdoc, hrank⟩ | ⟨m, hm, hfm, hfind, hrank⟩
      · exact Or.inl ⟨by rwa [hxc'] at hdoc, by rw [← hxr, hrank, hxc']⟩
      · right
        have hcid : m.convId = c.id := by
          have h2 := List.find?_some hfind
          rw [hxc'] at h2
          have h3 : c.id = m.convId := by simpa using h2
          exact h3.symm
        refine List.mem_map.mpr ⟨m, List.mem_filter.mpr ⟨hm, ?_⟩, by rw [← hxr, hrank]⟩
        simp [hcid, hfm]
    · rintro (⟨hdoc, rfl⟩ | hr)
      · refine List.mem_map.mpr ⟨(c, fr q (convDoc c)), ?_, rfl⟩
        refine List.mem_filter.mpr ⟨List.mem_filter.mpr ⟨?_, by simpa using hx₀p⟩, by simp⟩
        exact mem_searchRows.mpr (Or.inl ⟨hcconv, hdoc, rfl⟩)
      · rcases List.mem_map.mp hr with ⟨m, hmfil, rfl⟩
        rcases List.mem_filter.mp hmfil with ⟨hm, hmc⟩
        rw [Bool.and_eq_true] at hmc
        have hcid : m.convId = c.id := by simpa using hmc.1
        have hfind : db.convs.find? (fun x => x.id == m.convId) = some c :=
          (find?_id_eq_some hids hcconv).mpr hcid.symm
        refine List.mem_map.mpr ⟨(c, fr q m.content), ?_, rfl⟩
        refine List.mem_filter.mpr ⟨List.mem_filter.mpr ⟨?_, by simpa using hx₀p⟩, by simp⟩
        exact mem_searchRows.mpr (Or.inr ⟨m, hm, hmc.2, hfind, rfl⟩)
  unfold specRank
  cases hdoc : fm q (convDoc c) with
  | true =>
    refine listMax_congr hranks_ne fun r => (M r).trans ?_
    rw [List.mem_cons]
    constructor
    · rintro (⟨_, rfl⟩ | h)
      · exact Or.inl rfl
      · exact Or.inr h
    · rintro (rfl | h)
      · exact Or.inl ⟨hdoc, rfl⟩
      · exact Or.inr h
  | false =>
    have hA : fr q (convDoc c) = 0 := h0 _ _ hdoc
    have M' : ∀ r : ℚ,
        r ∈ (((searchRows fm fr db q).filter (fun rc => platOk platform rc.1)).filter
          (fun x => x.1 == c)).map Prod.snd ↔
        r ∈ (db.msgs.filter (fun m => m.convId == c.id && fm q m.content)).map
          (fun m => fr q m.content) := by
      intro r
      rw [M r]
      constructor
      · rintro (⟨hd, _⟩ | h)
        · rw [hdoc] at hd; exact absurd hd (by simp)
        · exact h
      · exact Or.inr
    have hBs_ne :
        (db.msgs.filter (fun m => m.convId == c.id && fm q m.content)).map
          (fun m => fr q m.content) ≠ [] := by
      intro e
      have := (M' _).mp (listMax_mem hranks_ne)
      rw [e] at this
      exact absurd this (List.not_mem_nil _)
    have hnnBs : (0 : ℚ) ≤ listMax
        ((db.msgs.filter (fun m => m.convId == c.id && fm q m.content)).map
          (fun m => fr q m.content)) := by
      rcases List.mem_map.mp (listMax_mem hBs_ne) with ⟨m, _, he⟩
      rw [← he]
      exact hnn _ _
    rw [listMax_congr hranks_ne M', hA, listMax_cons_of_le hBs_ne hnnBs]

/-- A two-conversation database: one matching directly by title, one matching
only through a message. -/
def dbW : DB :=
  ⟨[⟨0, "cursor", some "hello planning", none, [], 0⟩,
    ⟨1, "claude", none, none, [], 1⟩],
   [⟨1, "user", "hello world", 1⟩, ⟨0, "user", "other text", 0⟩], 2, 2⟩

theorem search_conversations_ranking_witness :
    (∀ rc ∈ (searchRanked wMatch wRank dbW "hello" none).take 5,
        rc.2 = specRank wMatch wRank dbW "hello" rc.1)
    ∧ ((searchRanked wMatch wRank dbW "hello" none).take 5).Sorted
        (rankedRel Prod.snd (fun rc => rc.1.createdAt))
    ∧ ((searchRanked wMatch wRank dbW "hello" none).take 5).length ≤ 5
    ∧ search_conversations wMatch wRank dbW "hello" none 5 =
        ((searchRanked wMatch wRank dbW "hello" none).take 5).map
          (fun rc => mkSearchEntry dbW rc.1) :=
  search_conversations_ranking wMatch wRank dbW "hello" none 5
    wRank_zero_of_not_match wRank_nonneg (by decide)

end LLMMCP
